import Mathlib

/-! Verification of the RESP codec, replication offset accounting, stream id
computation and key/value store operations of a Redis-compatible server
written in Rust.  The Rust sources are shallowly embedded: wire bytes are
modelled as `List Char` (one `Char` per byte; all bytes produced by the
encoder are ASCII), Rust `u64`/`i64`/`usize` are modelled as `Nat`/`Int`
with explicit range checks where the source performs them, and fallible
Rust functions return `Except`/`Option`.  Rust panics (`unwrap`,
`assert!`, arithmetic underflow in debug builds) are modelled as explicit
outcomes.
-/

namespace Redis

/-- The wire value sum type, from `resp.rs` (`enum RESP`).  Payload strings
are byte lists. -/
inductive RESP where
  | String (s : List Char)
  | Error (s : List Char)
  | Int (n : Int)
  | Bulk (s : List Char)
  | Array (a : List RESP)
  | Null
  | File (b : List Char)

/-- Decimal digit characters, fuel-bounded so that the definition is
structural (the fuel is never exhausted when it exceeds the number). -/
def natDigitsF : Nat → Nat → List Char
  | 0, _ => []
  | f + 1, n =>
    if n < 10 then [Nat.digitChar n]
    else natDigitsF f (n / 10) ++ [Nat.digitChar (n % 10)]

/-- Decimal digit characters of a natural number, most significant first
(the digits Rust's `Display` for unsigned integers emits). -/
def natDigits (n : Nat) : List Char := natDigitsF (n + 1) n

/-- Decimal representation of an `i64` value as Rust's `Display` prints it. -/
def intRepr (n : Int) : List Char :=
  if n < 0 then '-' :: natDigits n.natAbs else natDigits n.toNat

/-- ASCII decimal digit test (Rust's integer `from_str` accepts exactly the
bytes `b'0'..=b'9'` in digit positions). -/
def isDigitB (c : Char) : Bool := 48 ≤ c.toNat ∧ c.toNat ≤ 57

/-- Numeric value of a digit character. -/
def digitVal (c : Char) : Nat := c.toNat - 48

/-- Value of a list of decimal digits, most significant first. -/
def digitsVal (l : List Char) : Nat :=
  l.foldl (fun acc c => acc * 10 + digitVal c) 0

/-- Rust `u64::from_str`: an optional leading plus sign, then one or more
decimal digits, value below 2^64; anything else is a parse error. -/
def parseU64 (l : List Char) : Option Nat :=
  let digits := if l.head? = some '+' then l.drop 1 else l
  if digits ≠ [] ∧ digits.all isDigitB ∧ digitsVal digits < 2 ^ 64 then
    some (digitsVal digits)
  else
    none

/-- Rust `i64::from_str`: an optional leading sign, then one or more decimal
digits, result within the `i64` range; anything else is a parse error. -/
def parseI64 (l : List Char) : Option Int :=
  let sign : Int := if l.head? = some '-' then -1 else 1
  let digits := if l.head? = some '-' ∨ l.head? = some '+' then l.drop 1 else l
  if digits ≠ [] ∧ digits.all isDigitB then
    let v : Int := sign * digitsVal digits
    if -(2 ^ 63) ≤ v ∧ v < 2 ^ 63 then some v else none
  else
    none

/-- CR LF, the line terminator of the wire protocol. -/
def crlf : List Char := ['\r', '\n']

mutual

/-- The `encode_message` from `resp.rs`: the serialized bytes of a wire value
(the `write!` calls on the `CountingWriter`; the byte count the source
reports is the length of this list). -/
def encode_message : RESP → List Char
  | .String s => '+' :: s ++ crlf
  | .Error s => '-' :: s ++ crlf
  | .Int n => ':' :: intRepr n ++ crlf
  | .Bulk s => '$' :: natDigits s.length ++ crlf ++ s ++ crlf
  | .Null => '$' :: '-' :: '1' :: crlf
  | .Array a => '*' :: natDigits a.length ++ crlf ++ encodeList a
  | .File b => '$' :: natDigits b.length ++ crlf ++ b

/-- Concatenation of the encodings of the elements of an array. -/
def encodeList : List RESP → List Char
  | [] => []
  | v :: vs => encode_message v ++ encodeList vs

end

/-- Reasons `decode_message` aborts with an error result (`bail!` in the
source); the connection is closed by the caller. -/
inductive DecErr where
  | closedByPeer
  | emptyLine
  | unknownType
deriving Repr, DecidableEq

/-- Reasons `decode_message` panics (crashes the connection thread) instead
of returning an error result. -/
inductive Crash where
  | unwrapParse
  | assertCrlf
  | unwrapItem
deriving Repr, DecidableEq

/-- Outcome of a `decode_message` call: `ok` carries the consumed byte count
and the optional value (the source's `Result<(usize, Option<RESP>)>` on the
`Ok` path), `err` is a `bail!`, `panic` an `unwrap`/`assert_eq!` crash.
`fuelOut` is an artifact of the fuel-bounded embedding and is never produced
when the fuel exceeds the input length (the top-level entry point below
guarantees that). -/
inductive DOut where
  | ok (consumed : Nat) (val : Option RESP)
  | err (e : DecErr)
  | panic (c : Crash)
  | fuelOut

/-- The `BufRead::read_line`: the bytes up to and including the first LF (or to
the end of input when no LF remains), paired with the remaining input. -/
def readLine (input : List Char) : List Char × List Char :=
  let pre := input.takeWhile (fun c => ¬ (c = '\n'))
  if pre.length < input.length then (pre ++ ['\n'], input.drop (pre.length + 1))
  else (input, [])

/-- Rust `char::is_whitespace`: the Unicode White_Space property, exactly
the 25 code points Rust's standard library recognizes.  Note that the
byte-per-char embedding cannot express a multi-byte UTF-8 whitespace
character (such as U+00A0, bytes C2 A0) as the single character the
source's `str::trim` removes; the round-trip theorem therefore restricts
simple-string and error payloads to ASCII bytes, on which this predicate —
and the embedded `trim` built from it — coincides exactly with the
source. -/
def isWs (c : Char) : Bool :=
  c.toNat = 32 ∨ c.toNat = 9 ∨ c.toNat = 10 ∨ c.toNat = 13 ∨ c.toNat = 11 ∨
    c.toNat = 12 ∨ c.toNat = 133 ∨ c.toNat = 160 ∨ c.toNat = 5760 ∨
    (8192 ≤ c.toNat ∧ c.toNat ≤ 8202) ∨ c.toNat = 8232 ∨ c.toNat = 8233 ∨
    c.toNat = 8239 ∨ c.toNat = 8287 ∨ c.toNat = 12288

/-- Rust `str::trim`: drop leading and trailing whitespace. -/
def trim (l : List Char) : List Char :=
  ((l.dropWhile isWs).reverse.dropWhile isWs).reverse

mutual

/-- The `decode_message` from `resp.rs`, fuel-bounded.  Reads one header line,
dispatches on its first byte, and for `$`/`*` headers continues into the
payload.  `String::from_utf8` is the identity in this embedding (bytes are
identified with chars). -/
def decode_message : Nat → List Char → DOut
  | 0, _ => .fuelOut
  | fuel + 1, input =>
    match input with
    | [] => .err .closedByPeer
    | _ :: _ =>
      let lineBytes := (readLine input).1
      let rest := (readLine input).2
      let len := lineBytes.length
      match trim lineBytes with
      | [] => .err .emptyLine
      | t :: payload =>
        if t = '+' then .ok len (some (.String payload))
        else if t = '-' then .ok len (some (.Error payload))
        else if t = ':' then
          match parseI64 payload with
          | some n => .ok len (some (.Int n))
          | none => .panic .unwrapParse
        else if t = '$' then
          match parseI64 payload with
          | none => .panic .unwrapParse
          | some blen =>
            if blen < 0 then .ok len (some .Null)
            else
              let m := blen.toNat
              if rest.length < m + 2 then .ok len none
              else
                let buf := rest.take (m + 2)
                if buf.getD m ' ' = '\r' ∧ buf.getD (m + 1) ' ' = '\n' then
                  .ok (len + (m + 2)) (some (.Bulk (buf.take m)))
                else .panic .assertCrlf
        else if t = '*' then
          match parseU64 payload with
          | none => .panic .unwrapParse
          | some n =>
            if n = 0 then .ok len (some (.Array []))
            else decodeItems fuel n rest len []
        else .err .unknownType

/-- The `for _ in 0..len` loop of the `*` branch of `decode_message`:
decode `n` more items, accumulating consumed bytes and decoded items. -/
def decodeItems : Nat → Nat → List Char → Nat → List RESP → DOut
  | 0, _, _, _, _ => .fuelOut
  | fuel + 1, n, input, acc, items =>
    match n with
    | 0 => .ok acc (some (.Array items))
    | n + 1 =>
      match decode_message fuel input with
      | .ok c (some v) => decodeItems fuel n (input.drop c) (acc + c) (items ++ [v])
      | .ok _ none => .panic .unwrapItem
      | e => e

end

/-- The decoder as invoked on a buffered connection: the fuel bound is large
enough that it is never exhausted (each nesting level of a frame occupies at
least one input byte). -/
def decode (input : List Char) : DOut :=
  decode_message (2 * input.length + 3) input

/-- A line payload that provably survives the decoder's `trim` untouched:
all bytes are ASCII (so the source's char-level `str::trim` sees exactly
the bytes of this embedding, and no multi-byte Unicode whitespace can
occur), it contains no LF, and it does not end in a whitespace byte. -/
def lineSafe (s : List Char) : Bool :=
  s.all (fun c => c.toNat < 128 && !decide (c = '\n')) &&
    (match s.getLast? with
     | none => true
     | some c => !isWs c)

mutual

/-- Values whose encoding the decoder maps back to the value itself: no
`File` (it is never produced by `decode_message`), simple-string and error
payloads survive `trim` and fit on one line, and numeric fields are within
the ranges of the source's machine integers. -/
def validB : RESP → Bool
  | .String s => lineSafe s
  | .Error s => lineSafe s
  | .Int n => decide (-(2 ^ 63) ≤ n ∧ n < 2 ^ 63)
  | .Bulk s => decide (s.length < 2 ^ 63)
  | .Null => true
  | .Array a => decide (a.length < 2 ^ 64) && validBL a
  | .File _ => false

/-- The `validB` for every element of a list. -/
def validBL : List RESP → Bool
  | [] => true
  | v :: vs => validB v && validBL vs

end

mutual

/-- Fuel sufficient for `decode_message` to decode the encoding of a value. -/
def depthFuel : RESP → Nat
  | .Array a => 1 + itemsFuel a
  | _ => 1

/-- Fuel sufficient for `decodeItems` to decode an encoded item list. -/
def itemsFuel : List RESP → Nat
  | [] => 1
  | v :: vs => 1 + max (depthFuel v) (itemsFuel vs)

end

/-! Section: master replication fan-out (`master.rs`) -/

/-- A registered replica, from `master.rs` (`struct Replica`): `connected`
models whether a `send` on its outbox channel succeeds (the receiving end of
a disconnected channel has been dropped). -/
structure Replica where
  connected : Bool
  offset : Nat

/-- The `LogStore` from `redis.rs`: the replication log and its byte counter. -/
structure LogStore where
  log : List RESP
  log_bytes : Nat

/-- The master-side state touched by `send_replicas`. -/
structure MasterState where
  log_store : LogStore
  replicas : List Replica

/-- Rust `usize` subtraction: `none` models the underflow panic of a debug
build (a release build would wrap around). -/
def usizeSub (a b : Nat) : Option Nat :=
  if b ≤ a then some (a - b) else none

/-- The `for (i, replica) in replicas.iter().enumerate()` loop of
`send_replicas`, starting from index `i`. -/
def failedIndexesGo : List Replica → Nat → List Nat
  | [], _ => []
  | r :: rs, i =>
    if r.connected = false then i :: failedIndexesGo rs (i + 1)
    else failedIndexesGo rs (i + 1)

/-- The indexes of replicas whose outbox enqueue failed, collected by the
enumerate loop of `send_replicas`. -/
def failedIndexes (replicas : List Replica) : List Nat :=
  failedIndexesGo replicas 0

/-- The `for (items_removed, i) in failed_indexes.iter().enumerate()`
removal loop of `send_replicas` (`replicas.remove(i - items_removed)`;
the inner index subtraction never underflows because the failed indexes
are ascending). -/
def removeIndexes (replicas : List Replica) (failed : List Nat) : List Replica :=
  (failed.foldl (fun st i => (st.1.eraseIdx (i - st.2), st.2 + 1)) (replicas, 0)).1

/-- The `MasterConnection::send_replicas` from `master.rs`: append the frame to
the replication log, enqueue it to every replica, drop replicas whose
enqueue failed, and bump `log_bytes` only when
`replicas.len() - failed_indexes.len() > 0`.  The result is `none` when that
`usize` subtraction underflows (a panic in debug builds). -/
def send_replicas (st : MasterState) (message_bytes : Nat) (message : RESP) :
    Option MasterState :=
  let log_store1 : LogStore := ⟨st.log_store.log ++ [message], st.log_store.log_bytes⟩
  let failed := failedIndexes st.replicas
  let replicas1 := removeIndexes st.replicas failed
  match usizeSub replicas1.length failed.length with
  | none => none
  | some remaining =>
    if remaining > 0 then
      some ⟨⟨log_store1.log, log_store1.log_bytes + message_bytes⟩, replicas1⟩
    else
      some ⟨log_store1, replicas1⟩

/-- The mutating-command path of `MasterConnection::handle_message`: the
`message_bytes` charged to the log are the decoder's consumed count for the
request frame, which for a well-formed frame is its encoded length. -/
def handle_message_mutating (st : MasterState) (message : RESP) : Option MasterState :=
  send_replicas st (encode_message message).length message

/-! Section: command model (`protocol/command.rs`) and replica loop (`replica.rs`) -/

/-- The `enum Command` from `protocol/command.rs`. -/
inductive Command where
  | PING | ECHO | SET | GET | TYPE | KEYS
  | PSYNC | INFO | REPLCONF | WAIT | CONFIG
  | XADD | XRANGE | XREAD
deriving Repr, DecidableEq

/-- The `Command::is_mutating`. -/
def Command.is_mutating : Command → Bool
  | .SET => true
  | .XADD => true
  | _ => false

/-- ASCII upper-casing of one byte (Rust `str::to_uppercase` on the ASCII
strings involved here). -/
def asciiUpper (c : Char) : Char :=
  if 97 ≤ c.toNat ∧ c.toNat ≤ 122 then Char.ofNat (c.toNat - 32) else c

/-- The `Command::from_str`: upper-case the input and match the known names. -/
def command_from_str (s : List Char) : Option Command :=
  let u := s.map asciiUpper
  if u = ['P', 'I', 'N', 'G'] then some .PING
  else if u = ['G', 'E', 'T'] then some .GET
  else if u = ['T', 'Y', 'P', 'E'] then some .TYPE
  else if u = ['S', 'E', 'T'] then some .SET
  else if u = ['K', 'E', 'Y', 'S'] then some .KEYS
  else if u = ['P', 'S', 'Y', 'N', 'C'] then some .PSYNC
  else if u = ['E', 'C', 'H', 'O'] then some .ECHO
  else if u = ['I', 'N', 'F', 'O'] then some .INFO
  else if u = ['R', 'E', 'P', 'L', 'C', 'O', 'N', 'F'] then some .REPLCONF
  else if u = ['W', 'A', 'I', 'T'] then some .WAIT
  else if u = ['C', 'O', 'N', 'F', 'I', 'G'] then some .CONFIG
  else if u = ['X', 'A', 'D', 'D'] then some .XADD
  else if u = ['X', 'R', 'A', 'N', 'G', 'E'] then some .XRANGE
  else if u = ['X', 'R', 'E', 'A', 'D'] then some .XREAD
  else none

/-- The `CommandRequest` from `protocol/command.rs`. -/
structure CommandRequest where
  cmd : Command
  params : List (List Char)

/-- The `TryFrom<RESP> for CommandRequest`: the frame must be an `Array` whose
elements are all `Bulk`, and whose first element names a known command. -/
def commandRequest_try_from (v : RESP) : Option CommandRequest :=
  match v with
  | .Array array =>
    if array.all (fun x => match x with | .Bulk _ => true | _ => false) then
      match array with
      | .Bulk command :: params =>
        match command_from_str command with
        | some cmd =>
          some ⟨cmd, params.map (fun r => match r with | .Bulk s => s | _ => [])⟩
        | none => none
      | _ => none
    else none
  | _ => none

/-- The `ReplicaConnection::handle_internal_command` from `replica.rs`: a
`REPLCONF` frame (a GETACK) is answered with the ACK array built from the
current (pre-increment) `replicated_offset`; every other command is executed
against the store with its replies suppressed (`Ok(vec![])`).  The store
effect is irrelevant to offset accounting and is not modelled here. -/
def handle_internal_command (replicated_offset : Nat) (cmd : CommandRequest) :
    List RESP :=
  match cmd.cmd with
  | .REPLCONF =>
    [.Array [.Bulk ['R', 'E', 'P', 'L', 'C', 'O', 'N', 'F'], .Bulk ['A', 'C', 'K'],
      .Bulk (natDigits replicated_offset)]]
  | _ => []

/-- One iteration of the `loop` in
`ReplicaConnection::replica_master_connection`: read a frame (its decoded
length `len` is the frame's encoded length), convert it to a command (a
failure exits the loop), reply, then `replicated_offset += len`. -/
def replicaStep (off : Nat) (frame : RESP) : Option (Nat × List RESP) :=
  match commandRequest_try_from frame with
  | none => none
  | some cmd => some (off + (encode_message frame).length, handle_internal_command off cmd)

/-- The replica's replication loop over a list of incoming frames, starting
from a given `replicated_offset` (0 right after the full resync). -/
def replicaRun : Nat → List RESP → Option (Nat × List (List RESP))
  | off, [] => some (off, [])
  | off, f :: fs =>
    match replicaStep off f with
    | none => none
    | some (off1, replies) =>
      match replicaRun off1 fs with
      | none => none
      | some (offN, rs) => some (offN, replies :: rs)

/-- Sum of the encoded lengths of a list of frames. -/
def sumLens (fs : List RESP) : Nat :=
  (fs.map (fun f => (encode_message f).length)).sum

/-- Whether a frame parses as a `REPLCONF` command request. -/
def isReplconfFrame (f : RESP) : Bool :=
  match commandRequest_try_from f with
  | some c => c.cmd = .REPLCONF
  | none => false

/-- The ACK array the spec expects for a reported offset `n`. -/
def ackReply (n : Nat) : RESP :=
  .Array [.Bulk ['R', 'E', 'P', 'L', 'C', 'O', 'N', 'F'], .Bulk ['A', 'C', 'K'],
    .Bulk (natDigits n)]

/-! Section: stream ids and the store (`store.rs` / `rdb.rs`) -/

/-- The `StreamEntryId` (a pair of `u64`). -/
structure StreamEntryId where
  ms : Nat
  seq : Nat
deriving Repr, DecidableEq

/-- The source's `PartialOrd` on `StreamEntryId`: lexicographic strict
order. -/
def idLt (a b : StreamEntryId) : Bool :=
  a.ms < b.ms ∨ (a.ms = b.ms ∧ a.seq < b.seq)

/-- The `a <= b` as derived from the source's `partial_cmp` (Less or Equal). -/
def idLe (a b : StreamEntryId) : Bool :=
  idLt a b || decide (a = b)

/-- The `StreamEntryId::MIN`. -/
def idMIN : StreamEntryId := ⟨0, 0⟩

/-- The `u64::MAX`. -/
def U64MAX : Nat := 2 ^ 64 - 1

/-- The `StreamEntryId::MAX`. -/
def idMAX : StreamEntryId := ⟨U64MAX, U64MAX⟩

/-- The `u64` wrap-around (release-build two's-complement semantics of `+ 1`). -/
def wrap64 (n : Nat) : Nat := n % 2 ^ 64

/-- Rust `str::split('-')`, which keeps empty segments. -/
def splitDash : List Char → List (List Char)
  | [] => [[]]
  | c :: t =>
    if c = '-' then [] :: splitDash t
    else
      match splitDash t with
      | h :: r => (c :: h) :: r
      | [] => [[c]]

/-- The `FromStr for StreamEntryId`: `a-b` parses both parts, anything else is
parsed whole as a bare `u64` with sequence 0. -/
def streamEntryId_from_str (s : List Char) : Option StreamEntryId :=
  match splitDash s with
  | [first, second] =>
    match parseU64 first, parseU64 second with
    | some a, some b => some ⟨a, b⟩
    | _, _ => none
  | _ =>
    match parseU64 s with
    | some a => some ⟨a, 0⟩
    | none => none

/-- The `StreamEntryId::from_pattern` from `store.rs`/`rdb.rs` (`now_ms` stands
for `SystemTime::now()` in milliseconds). -/
def from_pattern (pattern : List Char) (last_id : Option StreamEntryId) (now_ms : Nat) :
    Option StreamEntryId :=
  if pattern = ['*'] then
    some
      (match last_id with
       | none => ⟨now_ms, 0⟩
       | some lid => ⟨lid.ms, wrap64 (lid.seq + 1)⟩)
  else
    match splitDash pattern with
    | [time_id, star] =>
      if star = ['*'] then
        match parseU64 time_id with
        | none => none
        | some t =>
          let default_seq : Nat := if t = 0 then 1 else 0
          some
            (match last_id with
             | none => ⟨t, default_seq⟩
             | some lid =>
               if lid.ms = t then ⟨t, wrap64 (lid.seq + 1)⟩ else ⟨t, default_seq⟩)
      else none
    | _ => none

/-- The `Display for StreamEntryId` (`"{}-{}"`). -/
def idToString (id : StreamEntryId) : List Char :=
  natDigits id.ms ++ '-' :: natDigits id.seq

/-- A stream record (`StreamEntry`): id plus ordered field/value pairs. -/
structure StreamEntry where
  id : StreamEntryId
  attrs : List (List Char × List Char)
deriving Repr, DecidableEq

/-- The stored value sum type (`enum Value`); stream listeners are abstract
tokens (the notification side effects are not modelled). -/
inductive Value where
  | string (s : List Char)
  | stream (entries : List StreamEntry) (listeners : List Nat)

/-- The `StoredValue`: a value with an optional absolute expiry (ms epoch). -/
structure StoredValue where
  value : Value
  valid_until : Option Nat
  key : List Char

/-- Errors surfaced by the store operations modelled here. -/
inductive StoreErr where
  | invalidId
  | idTooSmallZero
  | idNotGreater
  | notAStream
  | notFound (key : List Char)
deriving Repr, DecidableEq

/-- The id computation at the top of `StoredValue::add_entry`: a pattern
containing `*` goes through `from_pattern` with the stream's last id,
anything else through `FromStr`. -/
def computeNewId (id_pattern : List Char) (entries : List StreamEntry) (now : Nat) :
    Option StreamEntryId :=
  if id_pattern.contains '*' then
    from_pattern id_pattern ((entries.getLast?).map (fun e => e.id)) now
  else
    streamEntryId_from_str id_pattern

/-- The `StoredValue::add_entry`: compute the new id, reject ids `<= (0,0)` and
ids `<=` the stream's last id, and otherwise append the record.  Returns the
(possibly unchanged) stored value and the reply (`new_id.to_string()` or the
error). -/
def StoredValue.add_entry (sv : StoredValue) (id_pattern : List Char)
    (entry : List (List Char × List Char)) (now : Nat) :
    StoredValue × Except StoreErr (List Char) :=
  match sv.value with
  | .string _ => (sv, .error .notAStream)
  | .stream entries listeners =>
    match computeNewId id_pattern entries now with
    | none => (sv, .error .invalidId)
    | some new_id =>
      if idLe new_id ⟨0, 0⟩ then (sv, .error .idTooSmallZero)
      else
        match entries.getLast? with
        | some last =>
          if idLe new_id last.id then (sv, .error .idNotGreater)
          else
            (⟨.stream (entries ++ [⟨new_id, entry⟩]) listeners, sv.valid_until, sv.key⟩,
              .ok (idToString new_id))
        | none =>
          (⟨.stream (entries ++ [⟨new_id, entry⟩]) listeners, sv.valid_until, sv.key⟩,
            .ok (idToString new_id))

/-- The `StoredValue::range`: filter the records by the requested id interval,
preserving insertion order. -/
def StoredValue.range (sv : StoredValue) (from_id to_id : StreamEntryId)
    (inclusive_range : Bool) : Except StoreErr (List StreamEntry) :=
  match sv.value with
  | .stream entries _ =>
    .ok (entries.filter (fun e =>
      if inclusive_range then idLe from_id e.id && idLe e.id to_id
      else idLt from_id e.id && idLt e.id to_id))
  | .string _ => .error .notAStream

/-- The `StoredValue::empty_stream`. -/
def StoredValue.empty_stream (key : List Char) : StoredValue :=
  ⟨.stream [] [], none, key⟩

/-- Whether a stored value's expiry lies strictly in the past
(`valid_until < SystemTime::now()` in `StoredValue::value`). -/
def expiredAt (sv : StoredValue) (now : Nat) : Bool :=
  match sv.valid_until with
  | some t => t < now
  | none => false

/-- The store (`KVStore`, a `HashMap`), modelled as an association list
without duplicate keys. -/
abbrev KVStore := List (List Char × StoredValue)

/-- The `HashMap::get`. -/
def storeGet (st : KVStore) (k : List Char) : Option StoredValue :=
  match st with
  | [] => none
  | (k', v) :: t => if k' = k then some v else storeGet t k

/-- The `HashMap::insert` (replaces an existing entry). -/
def storeInsert (st : KVStore) (k : List Char) (v : StoredValue) : KVStore :=
  match st with
  | [] => [(k, v)]
  | (k', v') :: t => if k' = k then (k, v) :: t else (k', v') :: storeInsert t k v

/-- The `KVStore::keys` from `store.rs` (`self.0.keys()`): every key of the
map, with no expiry filtering. -/
def storeKeys (st : KVStore) : List (List Char) :=
  st.map (fun p => p.1)

/-- The `Command::KEYS` arm of `RedisServer::handle_command` from
`redis.rs`: every key of the map wrapped in a `Bulk`, the pattern parameter
unused. -/
def keysCommand (st : KVStore) (_params : List (List Char)) : List RESP :=
  [.Array ((storeKeys st).map (fun k => .Bulk k))]

/-- The `KVStore::insert_stream`: create an empty stream if the key is absent,
then `add_entry` on the stored value. -/
def insert_stream (st : KVStore) (key : List Char) (id_pattern : List Char)
    (stream_data : List (List Char × List Char)) (now : Nat) :
    KVStore × Except StoreErr (List Char) :=
  let st1 := if (storeGet st key).isSome then st
             else storeInsert st key (StoredValue.empty_stream key)
  match storeGet st1 key with
  | some v =>
    let r := v.add_entry id_pattern stream_data now
    (storeInsert st1 key r.1, r.2)
  | none => (st1, .error (.notFound key))

/-- The `KVStore::range_stream`: inclusive range over the stream at `key`,
records rendered as `(id.to_string(), attributes)`. -/
def range_stream (st : KVStore) (key : List Char) (from_id to_id : StreamEntryId) :
    Except StoreErr (List (List Char × List (List Char × List Char))) :=
  match storeGet st key with
  | none => .error (.notFound key)
  | some v =>
    match v.range from_id to_id true with
    | .error e => .error e
    | .ok entries => .ok (entries.map (fun e => (idToString e.id, e.attrs)))

/-- The loop body of `KVStore::add_listener`: keys absent from the store are
skipped; a key holding a string aborts with `not a stream` (earlier
registrations are kept, as in the source). -/
def addListenerGo (st : KVStore) (keys : List (List Char)) (listener : Nat) :
    KVStore × Except StoreErr Unit :=
  match keys with
  | [] => (st, .ok ())
  | k :: ks =>
    match storeGet st k with
    | none => addListenerGo st ks listener
    | some v =>
      match v.value with
      | .stream entries ls =>
        addListenerGo
          (storeInsert st k ⟨.stream entries (ls ++ [listener]), v.valid_until, v.key⟩)
          ks listener
      | .string _ => (st, .error .notAStream)

/-- The `KVStore::add_listener` from `store.rs`/`rdb.rs`. -/
def add_listener (st : KVStore) (keys : List (List Char)) (listener : Nat) :
    KVStore × Except StoreErr Unit :=
  addListenerGo st keys listener

/-- The `from_id` parse of the `Command::XRANGE` arm of
`RedisServer::handle_command`: `-` is MIN, otherwise
`parse::<StreamEntryId>().or(parse::<u64>() -> (v, 0))`. -/
def xrangeFromId (s : List Char) : Option StreamEntryId :=
  if s = ['-'] then some idMIN
  else
    match streamEntryId_from_str s with
    | some id => some id
    | none =>
      match parseU64 s with
      | some v => some ⟨v, 0⟩
      | none => none

/-- The `to_id` parse of the XRANGE arm: `+` is MAX, otherwise
`parse::<StreamEntryId>().or(parse::<u64>() -> (v, u64::MAX))`. -/
def xrangeToId (s : List Char) : Option StreamEntryId :=
  if s = ['+'] then some idMAX
  else
    match streamEntryId_from_str s with
    | some id => some id
    | none =>
      match parseU64 s with
      | some v => some ⟨v, U64MAX⟩
      | none => none

/-- The `encode_stream_entries` from `redis.rs`: alternate field and value
bulks. -/
def encode_stream_entries (entries : List (List Char × List Char)) : RESP :=
  .Array (entries.flatMap (fun kv => [.Bulk kv.1, .Bulk kv.2]))

/-- The reply-shaping of one XRANGE record. -/
def xrangeEntryRESP (e : List Char × List (List Char × List Char)) : RESP :=
  .Array [.Bulk e.1, encode_stream_entries e.2]

/-- The display text of a store error (`err.to_string()`). -/
def storeErrText : StoreErr → List Char
  | .invalidId => ("invalid id").data
  | .idTooSmallZero => ("ERR The ID specified in XADD must be greater than 0-0").data
  | .idNotGreater =>
    ("ERR The ID specified in XADD is equal or smaller than the target stream top item").data
  | .notAStream => ("not a stream").data
  | .notFound key => ("stream not found ").data ++ key

/-- The `Command::XRANGE` arm of `RedisServer::handle_command`: parse the
two bounds (a parse failure is a handler error, `none` here), then map the
range result into a reply list (a store error becomes an `Error` reply). -/
def xrangeCommand (st : KVStore) (key fromS toS : List Char) : Option (List RESP) :=
  match xrangeFromId fromS, xrangeToId toS with
  | some fid, some tid =>
    some
      (match range_stream st key fid tid with
       | .error e => [.Error (storeErrText e)]
       | .ok results => [.Array (results.map xrangeEntryRESP)])
  | _, _ => none

/-- Every requested key is either absent from the store or holds a stream
(the condition under which `add_listener` cannot hit its `not a stream`
error). -/
def keysStreamOrAbsent (st : KVStore) (keys : List (List Char)) : Bool :=
  keys.all (fun k =>
    match storeGet st k with
    | none => true
    | some sv =>
      match sv.value with
      | .stream _ _ => true
      | .string _ => false)

/-! Section: concrete fixtures used by witnesses and counterexamples -/

/-- A `SET k v` request frame. -/
def setFrame : RESP :=
  .Array [.Bulk ['S', 'E', 'T'], .Bulk ['k'], .Bulk ['v']]

/-- A `REPLCONF GETACK *` frame. -/
def getackFrame : RESP :=
  .Array [.Bulk ['R', 'E', 'P', 'L', 'C', 'O', 'N', 'F'],
    .Bulk ['G', 'E', 'T', 'A', 'C', 'K'], .Bulk ['*']]

/-- A stream holding the two records `5-0` and `5-1`. -/
def exStream56 : StoredValue :=
  ⟨.stream [⟨⟨5, 0⟩, []⟩, ⟨⟨5, 1⟩, []⟩] [], none, ['s']⟩

/-- A store holding only `exStream56` under key `s`. -/
def exStore56 : KVStore := [(['s'], exStream56)]

/-- A string entry whose expiry (5 ms) lies before the probe time (10 ms). -/
def exExpired : StoredValue := ⟨.string ['v'], some 5, ['a']⟩

/-- A store holding only the expired entry under key `a`. -/
def exStoreExpired : KVStore := [(['a'], exExpired)]

/-- A stream entry fixture for the `add_listener` witness. -/
def exListenStore : KVStore := [(['k'], ⟨.stream [] [], none, ['k']⟩)]

/-! Section: decimal digit lemmas -/

theorem digitVal_digitChar {m : Nat} (h : m < 10) : digitVal (Nat.digitChar m) = m := by
  interval_cases m <;> decide

theorem isDigitB_digitChar {m : Nat} (h : m < 10) : isDigitB (Nat.digitChar m) = true := by
  interval_cases m <;> decide

theorem natDigitsF_spec : ∀ f n, n < f →
    digitsVal (natDigitsF f n) = n ∧ natDigitsF f n ≠ [] ∧
      (natDigitsF f n).all isDigitB = true := by
  intro f
  induction f with
  | zero => omega
  | succ f ih =>
    intro n hn
    by_cases h10 : n < 10
    · simp only [natDigitsF, if_pos h10]
      refine ⟨?_, by simp, by simp [isDigitB_digitChar h10]⟩
      simp [digitsVal, digitVal_digitChar h10]
    · have hdiv : n / 10 < f := by
        have h1 : n / 10 < n := Nat.div_lt_self (by omega) (by omega)
        omega
      obtain ⟨hval, hne, hall⟩ := ih (n / 10) hdiv
      simp only [natDigitsF, if_neg h10]
      refine ⟨?_, by simp, ?_⟩
      · simp only [digitsVal, List.foldl_append] at *
        simp only [List.foldl_cons, List.foldl_nil]
        rw [hval, digitVal_digitChar (Nat.mod_lt n (by omega))]
        omega
      · simp only [List.all_append, hall, Bool.true_and, List.all_cons, List.all_nil,
          Bool.and_true]
        exact isDigitB_digitChar (Nat.mod_lt n (by omega))

theorem digitsVal_natDigits (n : Nat) : digitsVal (natDigits n) = n :=
  (natDigitsF_spec (n + 1) n (by omega)).1

theorem natDigits_ne_nil (n : Nat) : natDigits n ≠ [] :=
  (natDigitsF_spec (n + 1) n (by omega)).2.1

theorem natDigits_all_digit (n : Nat) : (natDigits n).all isDigitB = true :=
  (natDigitsF_spec (n + 1) n (by omega)).2.2

theorem isDigitB_toNat {c : Char} (h : isDigitB c = true) :
    48 ≤ c.toNat ∧ c.toNat ≤ 57 := by
  simpa [isDigitB] using h

theorem not_isWs_of_isDigitB {c : Char} (h : isDigitB c = true) : isWs c = false := by
  obtain ⟨h1, h2⟩ := isDigitB_toNat h
  simp only [isWs, decide_eq_false_iff_not]
  omega

theorem digit_ne_of_toNat {c d : Char} (h : isDigitB c = true)
    (hd : d.toNat < 48 ∨ 57 < d.toNat) : c ≠ d := by
  intro he
  subst he
  obtain ⟨h1, h2⟩ := isDigitB_toNat h
  omega

theorem natDigits_head_digit {n : Nat} {c : Char} {l : List Char}
    (h : natDigits n = c :: l) : isDigitB c = true := by
  have hall := natDigits_all_digit n
  rw [h, List.all_cons, Bool.and_eq_true] at hall
  exact hall.1

/-! Section: integer parse round-trips -/

theorem parseU64_natDigits {n : Nat} (h : n < 2 ^ 64) :
    parseU64 (natDigits n) = some n := by
  obtain ⟨c, l, hcl⟩ := List.exists_cons_of_ne_nil (natDigits_ne_nil n)
  have hc := natDigits_head_digit hcl
  have hplus : ((natDigits n).head? = some '+') = False := by
    rw [hcl]
    simp only [List.head?_cons, Option.some.injEq, eq_iff_iff, iff_false]
    exact digit_ne_of_toNat hc (by decide)
  rw [parseU64]
  simp only [hplus, if_false]
  rw [if_pos ⟨natDigits_ne_nil n, natDigits_all_digit n, by rw [digitsVal_natDigits]; exact h⟩,
    digitsVal_natDigits]

theorem parseI64_natDigits {n : Nat} (h : n < 2 ^ 63) :
    parseI64 (natDigits n) = some (n : Int) := by
  obtain ⟨c, l, hcl⟩ := List.exists_cons_of_ne_nil (natDigits_ne_nil n)
  have hc := natDigits_head_digit hcl
  have hminus : ((natDigits n).head? = some '-') = False := by
    rw [hcl]
    simp only [List.head?_cons, Option.some.injEq, eq_iff_iff, iff_false]
    exact digit_ne_of_toNat hc (by decide)
  have hplus : ((natDigits n).head? = some '+') = False := by
    rw [hcl]
    simp only [List.head?_cons, Option.some.injEq, eq_iff_iff, iff_false]
    exact digit_ne_of_toNat hc (by decide)
  rw [parseI64]
  simp only [hminus, hplus, if_false, false_or]
  rw [if_pos ⟨natDigits_ne_nil n, natDigits_all_digit n⟩]
  rw [digitsVal_natDigits]
  simp only [one_mul]
  rw [if_pos ⟨by omega, by omega⟩]

theorem parseI64_intRepr {n : Int} (h1 : -(2 ^ 63) ≤ n) (h2 : n < 2 ^ 63) :
    parseI64 (intRepr n) = some n := by
  by_cases hneg : n < 0
  · rw [intRepr, if_pos hneg]
    have hminus : (('-' :: natDigits n.natAbs).head? = some '-') = True := by simp
    rw [parseI64]
    simp only [List.head?_cons, hminus, if_true, true_or, if_pos, List.drop_one,
      List.tail_cons]
    rw [if_pos ⟨natDigits_ne_nil _, natDigits_all_digit _⟩, digitsVal_natDigits]
    have habs : (-1 : Int) * n.natAbs = n := by omega
    rw [habs, if_pos ⟨h1, lt_trans hneg (by positivity)⟩]
  · push_neg at hneg
    rw [intRepr, if_neg (not_lt.mpr hneg)]
    have := @parseI64_natDigits n.toNat (by omega)
    rw [this]
    congr 1
    omega

/-! Section: line reading and trimming lemmas -/

theorem takeWhile_append_cons {p : Char → Bool} {pre : List Char} {c : Char}
    {rest : List Char} (hpre : ∀ x ∈ pre, p x = true) (hc : p c = false) :
    (pre ++ c :: rest).takeWhile p = pre := by
  induction pre with
  | nil => simp [List.takeWhile_cons, hc]
  | cons a l ih =>
    have ha : p a = true := hpre a (by simp)
    simp only [List.cons_append, List.takeWhile_cons, ha, if_true]
    rw [ih (fun x hx => hpre x (by simp [hx]))]

theorem readLine_shape {pre rest : List Char} (h : '\n' ∉ pre) :
    readLine (pre ++ '\n' :: rest) = (pre ++ ['\n'], rest) := by
  rw [readLine]
  have htw : ((pre ++ '\n' :: rest).takeWhile (fun c => ¬ (c = '\n'))) = pre := by
    refine takeWhile_append_cons (fun x hx => ?_) (by simp)
    simp only [decide_eq_true_eq, decide_not, Bool.not_eq_true', decide_eq_false_iff_not]
    exact fun he => h (he ▸ hx)
  rw [htw]
  have hlt : pre.length < (pre ++ '\n' :: rest).length := by
    simp only [List.length_append, List.length_cons]
    omega
  rw [if_pos hlt]
  have hdrop : (pre ++ '\n' :: rest).drop (pre.length + 1) = rest := by
    have : pre ++ '\n' :: rest = (pre ++ ['\n']) ++ rest := by simp
    rw [this]
    have hlen : (pre ++ ['\n']).length = pre.length + 1 := by simp
    rw [← hlen, List.drop_left]
  rw [hdrop]

theorem dropWhile_cons_of_false {p : Char → Bool} {c : Char} {l : List Char}
    (hc : p c = false) : (c :: l).dropWhile p = c :: l := by
  simp [List.dropWhile_cons, hc]

/-- Trimming a header line `c :: s ++ CRLF` where the tag `c` is not
whitespace, `s` does not end in whitespace. -/
theorem trim_header {c : Char} {s : List Char} (hc : isWs c = false)
    (hs : ∀ x ∈ s.getLast?, isWs x = false) :
    trim (c :: s ++ crlf) = c :: s := by
  rw [trim, crlf]
  rw [List.cons_append, dropWhile_cons_of_false hc]
  have hrev : (c :: (s ++ ['\r', '\n'])).reverse = '\n' :: '\r' :: (s.reverse ++ [c]) := by
    simp
  rw [hrev]
  rw [List.dropWhile_cons]
  simp only [show isWs '\n' = true from by decide, if_true]
  rw [List.dropWhile_cons]
  simp only [show isWs '\r' = true from by decide, if_true]
  have hsr : (s.reverse ++ [c]).dropWhile isWs = s.reverse ++ [c] := by
    cases hsrev : s.reverse with
    | nil => simpa [hsrev] using @dropWhile_cons_of_false isWs c [] hc
    | cons a l =>
      have ha : s.getLast? = some a := by
        rw [← List.head?_reverse, hsrev]
        rfl
      simp only [List.cons_append]
      exact dropWhile_cons_of_false (hs a (by rw [ha]; rfl))
  rw [hsr]
  simp

/-! Section: facts about valid payloads -/

theorem mem_of_getLast?Eq : ∀ {l : List Char} {c : Char}, l.getLast? = some c → c ∈ l := by
  intro l
  induction l with
  | nil => simp
  | cons a t ih =>
    intro c h
    cases t with
    | nil =>
      simp only [List.getLast?_singleton, Option.some.injEq] at h
      simp [h]
    | cons b u =>
      rw [List.getLast?_cons_cons] at h
      exact List.mem_cons_of_mem _ (ih h)

theorem lineSafe_no_lf {s : List Char} (h : lineSafe s = true) : '\n' ∉ s := by
  simp only [lineSafe, Bool.and_eq_true, List.all_eq_true] at h
  intro hm
  have := h.1 _ hm
  simp at this

theorem lineSafe_last {s : List Char} (h : lineSafe s = true) :
    ∀ x ∈ s.getLast?, isWs x = false := by
  intro x hx
  simp only [lineSafe, Bool.and_eq_true] at h
  have h2 := h.2
  cases hl : s.getLast? with
  | none => rw [hl] at hx; cases hx
  | some c =>
    rw [hl] at hx h2
    cases hx
    simpa using h2

theorem no_lf_of_all_digit {l : List Char} (h : l.all isDigitB = true) : '\n' ∉ l := by
  intro hm
  have h1 := List.all_eq_true.mp h _ hm
  have h2 := isDigitB_toNat h1
  have h3 : ('\n' : Char).toNat = 10 := by decide
  omega

theorem last_not_ws_of_all_digit {l : List Char} (h : l.all isDigitB = true) :
    ∀ x ∈ l.getLast?, isWs x = false := by
  intro x hx
  have hx' : l.getLast? = some x := by
    cases hl : l.getLast? with
    | none => rw [hl] at hx; cases hx
    | some c => rw [hl] at hx; cases hx; rfl
  exact not_isWs_of_isDigitB (List.all_eq_true.mp h _ (mem_of_getLast?Eq hx'))

theorem intRepr_no_lf (n : Int) : '\n' ∉ intRepr n := by
  rw [intRepr]
  by_cases h : n < 0
  · rw [if_pos h]
    intro hm
    rcases List.mem_cons.mp hm with he | hm2
    · cases he
    · exact no_lf_of_all_digit (natDigits_all_digit _) hm2
  · rw [if_neg h]
    exact no_lf_of_all_digit (natDigits_all_digit _)

theorem intRepr_last {n : Int} : ∀ x ∈ (intRepr n).getLast?, isWs x = false := by
  intro x hx
  rw [intRepr] at hx
  by_cases h : n < 0
  · rw [if_pos h] at hx
    obtain ⟨c, l, hcl⟩ := List.exists_cons_of_ne_nil (natDigits_ne_nil n.natAbs)
    rw [hcl, List.getLast?_cons_cons] at hx
    rw [← hcl] at hx
    exact last_not_ws_of_all_digit (natDigits_all_digit _) x hx
  · rw [if_neg h] at hx
    exact last_not_ws_of_all_digit (natDigits_all_digit _) x hx

theorem intRepr_ne_nil (n : Int) : intRepr n ≠ [] := by
  rw [intRepr]
  by_cases h : n < 0
  · simp [if_pos h]
  · simp only [if_neg h]
    exact natDigits_ne_nil _

/-! Section: length and fuel bounds -/

theorem natDigits_length_pos (n : Nat) : 0 < (natDigits n).length :=
  List.length_pos.mpr (natDigits_ne_nil n)

theorem encode_length_ge (v : RESP) : 3 ≤ (encode_message v).length := by
  cases v with
  | String s =>
    simp only [encode_message, crlf, List.length_cons, List.length_append]
    omega
  | Error s =>
    simp only [encode_message, crlf, List.length_cons, List.length_append]
    omega
  | Int n =>
    have h : 0 < (intRepr n).length := List.length_pos.mpr (intRepr_ne_nil n)
    simp only [encode_message, crlf, List.length_cons, List.length_append]
    omega
  | Bulk s =>
    have h := natDigits_length_pos s.length
    simp only [encode_message, crlf, List.length_cons, List.length_append]
    omega
  | Null =>
    simp only [encode_message, crlf, List.length_cons, List.length_append]
    omega
  | Array a =>
    have h := natDigits_length_pos a.length
    simp only [encode_message, crlf, List.length_cons, List.length_append]
    omega
  | File b =>
    have h := natDigits_length_pos b.length
    simp only [encode_message, crlf, List.length_cons, List.length_append]
    omega

mutual

theorem depthFuel_le : ∀ v : RESP, depthFuel v ≤ (encode_message v).length
  | .String s => by simp [depthFuel, encode_message, crlf]
  | .Error s => by simp [depthFuel, encode_message, crlf]
  | .Int n => by simp [depthFuel, encode_message, crlf]
  | .Bulk s => by simp [depthFuel, encode_message, crlf]
  | .Null => by simp [depthFuel, encode_message, crlf]
  | .File b => by simp [depthFuel, encode_message, crlf]
  | .Array a => by
    have h := itemsFuel_le a
    have hd := natDigits_length_pos a.length
    simp only [depthFuel, encode_message, crlf]
    simp only [List.length_cons, List.length_append]
    omega

theorem itemsFuel_le : ∀ vs : List RESP, itemsFuel vs ≤ (encodeList vs).length + 2
  | [] => by simp [itemsFuel, encodeList]
  | v :: vs => by
    have h1 := depthFuel_le v
    have h2 := itemsFuel_le vs
    have h3 := encode_length_ge v
    simp only [itemsFuel, encodeList, List.length_append]
    omega

end

/-! Section: decoding an encoded header line -/

theorem readLine_header {c : Char} {s rest : List Char} (hcn : c ≠ '\n')
    (hlf : '\n' ∉ s) :
    readLine (c :: (s ++ (crlf ++ rest))) = ((c :: s) ++ crlf, rest) := by
  have hshape : c :: (s ++ (crlf ++ rest)) = (c :: (s ++ ['\r'])) ++ '\n' :: rest := by
    simp [crlf]
  rw [hshape]
  rw [readLine_shape ?hpre]
  case hpre =>
    intro hm
    rcases List.mem_cons.mp hm with he | hm2
    · exact hcn he.symm
    · rcases List.mem_append.mp hm2 with hm3 | hm4
      · exact hlf hm3
      · simp at hm4
  · simp [crlf]

theorem isWs_ne_lf {c : Char} (hc : isWs c = false) : c ≠ '\n' := by
  intro he
  rw [he] at hc
  exact absurd hc (by decide)

theorem decode_message_line {fuel : Nat} {c : Char} {s rest : List Char}
    (hc : isWs c = false) (hlf : '\n' ∉ s)
    (hlast : ∀ x ∈ s.getLast?, isWs x = false) :
    decode_message (fuel + 1) (c :: (s ++ (crlf ++ rest))) =
      (if c = '+' then .ok (s.length + 3) (some (.String s))
       else if c = '-' then .ok (s.length + 3) (some (.Error s))
       else if c = ':' then
         match parseI64 s with
         | some n => .ok (s.length + 3) (some (.Int n))
         | none => .panic .unwrapParse
       else if c = '$' then
         match parseI64 s with
         | none => .panic .unwrapParse
         | some blen =>
           if blen < 0 then .ok (s.length + 3) (some .Null)
           else
             if rest.length < blen.toNat + 2 then .ok (s.length + 3) none
             else
               if (rest.take (blen.toNat + 2)).getD blen.toNat ' ' = '\r' ∧
                   (rest.take (blen.toNat + 2)).getD (blen.toNat + 1) ' ' = '\n' then
                 .ok (s.length + 3 + (blen.toNat + 2))
                   (some (.Bulk ((rest.take (blen.toNat + 2)).take blen.toNat)))
               else .panic .assertCrlf
       else if c = '*' then
         match parseU64 s with
         | none => .panic .unwrapParse
         | some n =>
           if n = 0 then .ok (s.length + 3) (some (.Array []))
           else decodeItems fuel n rest (s.length + 3) []
       else .err .unknownType) := by
  have hline := @readLine_header c s rest (isWs_ne_lf hc) hlf
  have htrim : trim ((c :: s) ++ crlf) = c :: s := trim_header hc hlast
  have hlen : ((c :: s) ++ crlf).length = s.length + 3 := by simp [crlf]
  simp only [decode_message, hline, htrim, hlen]

/-! Section: the decoder inverts the encoder -/

theorem depthFuel_pos (v : RESP) : 1 ≤ depthFuel v := by
  cases v <;> simp [depthFuel]

theorem itemsFuel_pos (vs : List RESP) : 1 ≤ itemsFuel vs := by
  cases vs <;> simp [itemsFuel]

theorem getD_append_right {l₁ l₂ : List Char} {n : Nat} (h : l₁.length ≤ n) (d : Char) :
    (l₁ ++ l₂).getD n d = l₂.getD (n - l₁.length) d := by
  rw [List.getD_eq_getElem?_getD, List.getD_eq_getElem?_getD,
    List.getElem?_append_right h]

theorem decode_encode_all : ∀ fuel : Nat,
    (∀ (v : RESP) (rest : List Char), validB v = true → depthFuel v ≤ fuel →
      decode_message fuel (encode_message v ++ rest) =
        .ok (encode_message v).length (some v)) ∧
    (∀ (vs : List RESP) (rest : List Char) (acc : Nat) (items : List RESP),
      validBL vs = true → itemsFuel vs ≤ fuel →
      decodeItems fuel vs.length (encodeList vs ++ rest) acc items =
        .ok (acc + (encodeList vs).length) (some (.Array (items ++ vs)))) := by
  intro fuel
  induction fuel using Nat.strong_induction_on with
  | _ fuel ih =>
    constructor
    · intro v rest hv hd
      cases fuel with
      | zero => exact absurd hd (by have := depthFuel_pos v; omega)
      | succ f =>
      cases v with
      | String s =>
        have hsafe : lineSafe s = true := by simpa [validB] using hv
        have heq : encode_message (.String s) ++ rest = '+' :: (s ++ (crlf ++ rest)) := by
          simp [encode_message]
        rw [heq,
          decode_message_line (by decide) (lineSafe_no_lf hsafe) (lineSafe_last hsafe)]
        simp [encode_message, crlf]
      | Error s =>
        have hsafe : lineSafe s = true := by simpa [validB] using hv
        have heq : encode_message (.Error s) ++ rest = '-' :: (s ++ (crlf ++ rest)) := by
          simp [encode_message]
        rw [heq,
          decode_message_line (by decide) (lineSafe_no_lf hsafe) (lineSafe_last hsafe)]
        simp [encode_message, crlf]
      | Int n =>
        have hrange : -(2 ^ 63) ≤ n ∧ n < 2 ^ 63 := by simpa [validB] using hv
        have heq : encode_message (.Int n) ++ rest = ':' :: (intRepr n ++ (crlf ++ rest)) := by
          simp [encode_message]
        rw [heq, decode_message_line (by decide) (intRepr_no_lf n) intRepr_last]
        rw [parseI64_intRepr hrange.1 hrange.2]
        simp [encode_message, crlf]
      | Bulk s =>
        have hslen : s.length < 2 ^ 63 := by simpa [validB] using hv
        have heq : encode_message (.Bulk s) ++ rest =
            '$' :: (natDigits s.length ++ (crlf ++ (s ++ (crlf ++ rest)))) := by
          simp [encode_message]
        rw [heq, decode_message_line (by decide)
          (no_lf_of_all_digit (natDigits_all_digit _))
          (last_not_ws_of_all_digit (natDigits_all_digit _))]
        rw [parseI64_natDigits hslen]
        have hd1 : ('$' : Char) = '+' ↔ False := by decide
        have hblen : ¬ ((s.length : Int) < 0) := by omega
        have htn : ((s.length : Int)).toNat = s.length := by omega
        simp only [show (('$' : Char) = '+') = False from by decide,
          show (('$' : Char) = '-') = False from by decide,
          show (('$' : Char) = ':') = False from by decide,
          show (('$' : Char) = '$') = True from by decide,
          if_false, if_true, iff_false, eq_self_iff_true]
        rw [if_neg hblen]
        rw [htn]
        have hrlen : ¬ ((s ++ (crlf ++ rest)).length < s.length + 2) := by
          simp [crlf]
        rw [if_neg hrlen]
        have hassoc : s ++ (crlf ++ rest) = (s ++ crlf) ++ rest := by simp
        have htake : (s ++ (crlf ++ rest)).take (s.length + 2) = s ++ crlf := by
          rw [hassoc, List.take_left' (by simp [crlf])]
        rw [htake]
        have hg1 : (s ++ crlf).getD s.length ' ' = '\r' := by
          rw [getD_append_right (le_refl _)]
          simp [crlf]
        have hg2 : (s ++ crlf).getD (s.length + 1) ' ' = '\n' := by
          rw [getD_append_right (by omega)]
          have : s.length + 1 - s.length = 1 := by omega
          rw [this]
          simp [crlf]
        rw [if_pos ⟨hg1, hg2⟩]
        have htake2 : (s ++ crlf).take s.length = s := List.take_left' rfl
        rw [htake2]
        simp [encode_message, crlf]
        omega
      | Null =>
        have heq : encode_message .Null ++ rest =
            '$' :: ((['-', '1'] : List Char) ++ (crlf ++ rest)) := by
          simp [encode_message, crlf]
        rw [heq, decode_message_line (by decide) (by decide) (by decide)]
        have hparse : parseI64 ['-', '1'] = some (-1) := by decide
        rw [hparse]
        simp [encode_message, crlf]
      | File b => simp [validB] at hv
      | Array a =>
        have hva : a.length < 2 ^ 64 ∧ validBL a = true := by
          simpa [validB, Bool.and_eq_true] using hv
        have heq : encode_message (.Array a) ++ rest =
            '*' :: (natDigits a.length ++ (crlf ++ (encodeList a ++ rest))) := by
          simp [encode_message]
        rw [heq, decode_message_line (by decide)
          (no_lf_of_all_digit (natDigits_all_digit _))
          (last_not_ws_of_all_digit (natDigits_all_digit _))]
        rw [parseU64_natDigits hva.1]
        simp only [show (('*' : Char) = '+') = False from by decide,
          show (('*' : Char) = '-') = False from by decide,
          show (('*' : Char) = ':') = False from by decide,
          show (('*' : Char) = '$') = False from by decide,
          show (('*' : Char) = '*') = True from by decide,
          if_false, if_true]
        by_cases hzero : a.length = 0
        · rw [if_pos hzero]
          have ha : a = [] := List.length_eq_zero.mp hzero
          subst ha
          simp [encode_message, crlf, encodeList, natDigits, natDigitsF]
        · rw [if_neg hzero]
          have hif : itemsFuel a ≤ f := by
            have : depthFuel (.Array a) = 1 + itemsFuel a := by simp [depthFuel]
            omega
          have := (ih f (by omega)).2 a rest ((natDigits a.length).length + 3) [] hva.2 hif
          rw [this]
          simp [encode_message, crlf]
          omega
    · intro vs rest acc items hvl hif
      cases fuel with
      | zero => exact absurd hif (by have := itemsFuel_pos vs; omega)
      | succ f =>
      cases vs with
      | nil =>
        simp only [encodeList, List.length_nil, List.nil_append, decodeItems]
        simp
      | cons v vs' =>
        have hv : validB v = true ∧ validBL vs' = true := by
          simpa [validBL, Bool.and_eq_true] using hvl
        have hfv : depthFuel v ≤ f ∧ itemsFuel vs' ≤ f := by
          have : itemsFuel (v :: vs') = 1 + max (depthFuel v) (itemsFuel vs') := by
            simp [itemsFuel]
          constructor <;> omega
        have heq : encodeList (v :: vs') ++ rest =
            encode_message v ++ (encodeList vs' ++ rest) := by
          simp [encodeList]
        simp only [List.length_cons, decodeItems, heq]
        rw [(ih f (by omega)).1 v (encodeList vs' ++ rest) hv.1 hfv.1]
        show decodeItems f vs'.length
            ((encode_message v ++ (encodeList vs' ++ rest)).drop (encode_message v).length)
            (acc + (encode_message v).length) (items ++ [v]) =
          DOut.ok (acc + (encodeList (v :: vs')).length)
            (some (.Array (items ++ v :: vs')))
        rw [List.drop_left]
        rw [(ih f (by omega)).2 vs' rest (acc + (encode_message v).length)
          (items ++ [v]) hv.2 hfv.2]
        simp [encodeList]
        omega

/-! Section: claim C2: codec round-trip -/

/-- C2 (amended): for every `File`-free value whose simple-string and error
payloads are ASCII, contain no LF and do not end in a whitespace byte
(so the source's char-level `trim` coincides with the embedded byte-level
one), and whose numeric fields are within machine-integer range, decoding
the encoding succeeds, returns the value itself, and consumes exactly the
encoding's length.  (The claimed direction `encode(decode(b)) == b` fails
on frames whose line payloads carry trailing whitespace, which the decoder
trims — see the counterexample.) -/
theorem C2_roundtrip_amended (v : RESP) (hv : validB v = true) :
    decode (encode_message v) = .ok (encode_message v).length (some v) := by
  rw [decode]
  have h := (decode_encode_all (2 * (encode_message v).length + 3)).1 v [] hv
    (le_trans (depthFuel_le v) (by omega))
  simpa using h

/-- Witness for C2: the round-trip at a concrete `SET` request frame. -/
theorem C2_roundtrip_witness :
    validB setFrame = true ∧
    decode (encode_message setFrame) =
      .ok (encode_message setFrame).length (some setFrame) :=
  ⟨by decide, C2_roundtrip_amended setFrame (by decide)⟩

/-- Counterexample to C2 as stated: the frame `+a \r\n` (the serialized form
of the simple string `a `) is decoded in full — `bytes_consumed` is its
length, 5 — but the decoder trims the trailing space, so re-encoding the
decoded value yields `+a\r\n ≠ +a \r\n`. -/
theorem C2_counterexample :
    encode_message (.String ['a', ' ']) = ['+', 'a', ' ', '\r', '\n'] ∧
    decode ['+', 'a', ' ', '\r', '\n'] = .ok 5 (some (.String ['a'])) ∧
    encode_message (.String ['a']) ≠ ['+', 'a', ' ', '\r', '\n'] :=
  ⟨rfl, rfl, by decide⟩

/-! Section: claim C8: decoder totality -/

/-- Counterexample to C8 as stated: the header line `:x\r\n`, whose numeric
field does not parse, crashes the decoder through
`line[1..].parse().unwrap()` instead of being surfaced as an error
result. -/
theorem C8_counterexample :
    decode [':', 'x', '\r', '\n'] = .panic .unwrapParse := rfl

/-- C8 (amended): the decoder surfaces an empty header line, an unknown type
byte and a closed peer as error results (upon which the connection is
closed), but a header whose numeric field does not parse panics through
`unwrap`, and a bulk-string payload whose trailing two bytes are not CRLF
panics through `assert_eq!`. -/
theorem C8_amended :
    decode ['\r', '\n'] = .err .emptyLine ∧
    decode ['?', 'h', 'i', '\r', '\n'] = .err .unknownType ∧
    decode [] = .err .closedByPeer ∧
    decode [':', 'x', '\r', '\n'] = .panic .unwrapParse ∧
    decode ['$', '5', 'x', '\r', '\n'] = .panic .unwrapParse ∧
    decode ['$', '1', '\r', '\n', 'a', 'X', 'Y'] = .panic .assertCrlf :=
  ⟨rfl, rfl, rfl, rfl, rfl, rfl⟩

/-! Section: claims C1 and C10: master fan-out and `log_bytes` -/

theorem failedIndexesGo_nil {rs : List Replica} (h : ∀ r ∈ rs, r.connected = true) :
    ∀ i, failedIndexesGo rs i = [] := by
  induction rs with
  | nil => intro i; rfl
  | cons r rs ih =>
    intro i
    have hr : r.connected = true := h r (by simp)
    simp only [failedIndexesGo, hr]
    simp only [Bool.true_eq_false, if_false]
    exact ih (fun x hx => h x (by simp [hx])) (i + 1)

theorem failedIndexes_nil {rs : List Replica} (h : ∀ r ∈ rs, r.connected = true) :
    failedIndexes rs = [] :=
  failedIndexesGo_nil h 0

/-- Counterexample to C1 as stated: with no replicas registered, a mutating
`SET` frame is appended to the log but `log_bytes` stays 0 instead of
advancing by the frame's encoded size (which is 31, not 0). -/
theorem C1_counterexample :
    send_replicas ⟨⟨[], 0⟩, []⟩ (encode_message setFrame).length setFrame =
      some ⟨⟨[setFrame], 0⟩, []⟩ ∧
    (encode_message setFrame).length ≠ 0 :=
  ⟨rfl, by decide⟩

/-- C1 (amended): `log_bytes` is monotonically non-decreasing on every
non-panicking execution of `send_replicas`; when every registered replica's
outbox enqueue succeeds, the frame is appended to the log and `log_bytes`
advances by exactly the encoded frame size if at least one replica is
registered, and is left unchanged when the registry is empty. -/
theorem C1_logbytes_amended :
    (∀ (st : MasterState) (b : Nat) (m : RESP),
      (∀ r ∈ st.replicas, r.connected = true) →
      send_replicas st b m =
        some ⟨⟨st.log_store.log ++ [m],
          if 0 < st.replicas.length then st.log_store.log_bytes + b
          else st.log_store.log_bytes⟩, st.replicas⟩) ∧
    (∀ (st : MasterState) (b : Nat) (m : RESP) (st' : MasterState),
      send_replicas st b m = some st' →
      st.log_store.log_bytes ≤ st'.log_store.log_bytes) := by
  constructor
  · intro st b m h
    have hfail : failedIndexes st.replicas = [] := failedIndexes_nil h
    have hrem : removeIndexes st.replicas [] = st.replicas := rfl
    simp only [send_replicas, hfail, hrem, List.length_nil, usizeSub, Nat.zero_le,
      if_pos, Nat.sub_zero]
    by_cases hlen : 0 < st.replicas.length
    · rw [if_pos hlen, if_pos hlen]
    · rw [if_neg hlen, if_neg hlen]
  · intro st b m st' h
    simp only [send_replicas] at h
    cases husize : usizeSub (removeIndexes st.replicas (failedIndexes st.replicas)).length
        (failedIndexes st.replicas).length with
    | none => rw [husize] at h; cases h
    | some g =>
      rw [husize] at h
      dsimp only at h
      by_cases hg : g > 0
      · rw [if_pos hg] at h
        simp only [Option.some.injEq] at h
        subst h
        simp only []
        omega
      · rw [if_neg hg] at h
        simp only [Option.some.injEq] at h
        subst h
        exact le_refl _

/-- Witness for C1 (amended): a registry with one connected replica sees
`log_bytes` advance by the frame size. -/
theorem C1_logbytes_witness :
    send_replicas ⟨⟨[], 7⟩, [⟨true, 0⟩]⟩ 31 setFrame =
      some ⟨⟨[] ++ [setFrame],
        if 0 < ([⟨true, 0⟩] : List Replica).length then 7 + 31 else 7⟩,
        [⟨true, 0⟩]⟩ :=
  C1_logbytes_amended.1 ⟨⟨[], 7⟩, [⟨true, 0⟩]⟩ 31 setFrame (by decide)

/-! Section: claim C10: the fan-out guard underflows -/

/-- C10 at the failing input: the guard
`replicas.len() - failed_indexes.len()` of `send_replicas` does underflow —
with a registry holding exactly one replica whose channel is disconnected,
the failed replica is removed first, so the guard computes `0 - 1` on
`usize` and the embedding reports the panic (`none`). -/
theorem C10_guard_underflow :
    send_replicas ⟨⟨[], 0⟩, [⟨false, 0⟩]⟩ (encode_message setFrame).length setFrame =
      none := rfl

/-! Section: claim C3: replica offset accounting -/

theorem sumLens_cons (f : RESP) (fs : List RESP) :
    sumLens (f :: fs) = (encode_message f).length + sumLens fs := by
  simp [sumLens]

theorem replicaRun_spec (fs : List RESP) : ∀ off0 : Nat,
    (∀ f ∈ fs, (commandRequest_try_from f).isSome = true) →
    ∃ rs, replicaRun off0 fs = some (off0 + sumLens fs, rs) ∧
      rs.length = fs.length ∧
      ∀ (k : Nat) (hk : k < fs.length), isReplconfFrame (fs.get ⟨k, hk⟩) = true →
        rs.get? k = some [ackReply (off0 + sumLens (fs.take k))] := by
  induction fs with
  | nil =>
    intro off0 h
    refine ⟨[], ?_, rfl, ?_⟩
    · simp [replicaRun, sumLens]
    · intro k hk
      simp at hk
  | cons f fs ih =>
    intro off0 h
    obtain ⟨cmd, hcmd⟩ := Option.isSome_iff_exists.mp (h f (by simp))
    obtain ⟨rs', hrun', hlen', hack'⟩ :=
      ih (off0 + (encode_message f).length) (fun x hx => h x (by simp [hx]))
    refine ⟨handle_internal_command off0 cmd :: rs', ?_, by simp [hlen'], ?_⟩
    · simp only [replicaRun, replicaStep, hcmd, hrun']
      rw [sumLens_cons]
      have : off0 + (encode_message f).length + sumLens fs =
          off0 + ((encode_message f).length + sumLens fs) := by omega
      rw [this]
    · intro k hk hrep
      match k with
      | 0 =>
        have hcc : cmd.cmd = Command.REPLCONF := by
          simp only [isReplconfFrame, List.get] at hrep
          rw [hcmd] at hrep
          simpa using hrep
        simp only [List.get?_cons_zero, List.take_zero]
        simp [handle_internal_command, hcc, ackReply, sumLens]
      | k' + 1 =>
        have hk' : k' < fs.length := by simpa using hk
        have hrep' : isReplconfFrame (fs.get ⟨k', hk'⟩) = true := by
          simpa using hrep
        have := hack' k' hk' hrep'
        simp only [List.get?_cons_succ]
        rw [show (f :: fs).take (k' + 1) = f :: fs.take k' from rfl]
        rw [sumLens_cons]
        have harith : off0 + ((encode_message f).length + sumLens (fs.take k')) =
            off0 + (encode_message f).length + sumLens (fs.take k') := by omega
        rw [harith]
        simpa using this

/-- C3: on the replica's replication connection, after processing any list
of parseable frames from offset 0 (the state right after the full resync),
`replicated_offset` equals the sum of the encoded lengths of every received
frame — `REPLCONF` (GETACK) frames included — and the reply to the `k`-th
frame, when it is a `REPLCONF`, is the array
`["REPLCONF", "ACK", n]` with `n` the offset before that frame's own length
is added. -/
theorem C3_replica_offset (fs : List RESP)
    (h : ∀ f ∈ fs, (commandRequest_try_from f).isSome = true) :
    ∃ rs, replicaRun 0 fs = some (sumLens fs, rs) ∧
      rs.length = fs.length ∧
      ∀ (k : Nat) (hk : k < fs.length), isReplconfFrame (fs.get ⟨k, hk⟩) = true →
        rs.get? k = some [ackReply (sumLens (fs.take k))] := by
  have := replicaRun_spec fs 0 h
  simpa using this

/-- Witness for C3 at the two-frame stream `[SET k v, REPLCONF GETACK *]`. -/
theorem C3_replica_offset_witness :
    ∃ rs, replicaRun 0 [setFrame, getackFrame] =
        some (sumLens [setFrame, getackFrame], rs) ∧
      rs.length = ([setFrame, getackFrame] : List RESP).length ∧
      ∀ (k : Nat) (hk : k < ([setFrame, getackFrame] : List RESP).length),
        isReplconfFrame (([setFrame, getackFrame] : List RESP).get ⟨k, hk⟩) = true →
        rs.get? k = some [ackReply (sumLens (([setFrame, getackFrame] : List RESP).take k))] :=
  C3_replica_offset [setFrame, getackFrame] (by decide)

/-! Section: claim C4: XADD ordering -/

theorem idLe_false_lt {a b : StreamEntryId} (h : idLe a b = false) :
    idLt b a = true := by
  cases a with
  | mk ams aseq =>
    cases b with
    | mk bms bseq =>
      simp only [idLe, idLt, StreamEntryId.mk.injEq, Bool.or_eq_false_iff,
        decide_eq_false_iff_not, not_or, not_and] at h
      simp only [idLt, decide_eq_true_eq]
      omega

/-- C4: on a stream value, once the new id has been computed, `add_entry`
fails exactly when the computed id is `<= (0,0)` or `<=` the stream's last
id; on success it appends a record carrying the computed id, which is
strictly greater than the previous last id; and on failure the record
sequence (indeed the whole stored value) is unchanged. -/
theorem C4_xadd_order {entries : List StreamEntry} {listeners : List Nat}
    {vu : Option Nat} {key p : List Char} {attrs : List (List Char × List Char)}
    {now : Nat} {new_id : StreamEntryId}
    (hid : computeNewId p entries now = some new_id) :
    ((∃ e, (StoredValue.add_entry ⟨.stream entries listeners, vu, key⟩ p attrs now).2 =
        .error e) ↔
      (idLe new_id ⟨0, 0⟩ = true ∨
        ∃ last, entries.getLast? = some last ∧ idLe new_id last.id = true)) ∧
    (∀ s, (StoredValue.add_entry ⟨.stream entries listeners, vu, key⟩ p attrs now).2 =
        .ok s →
      s = idToString new_id ∧
      (StoredValue.add_entry ⟨.stream entries listeners, vu, key⟩ p attrs now).1 =
        ⟨.stream (entries ++ [⟨new_id, attrs⟩]) listeners, vu, key⟩ ∧
      ∀ last, entries.getLast? = some last → idLt last.id new_id = true) ∧
    (∀ e, (StoredValue.add_entry ⟨.stream entries listeners, vu, key⟩ p attrs now).2 =
        .error e →
      (StoredValue.add_entry ⟨.stream entries listeners, vu, key⟩ p attrs now).1 =
        ⟨.stream entries listeners, vu, key⟩) := by
  simp only [StoredValue.add_entry, hid]
  by_cases h0 : idLe new_id ⟨0, 0⟩ = true
  · rw [if_pos h0]
    refine ⟨iff_of_true ⟨.idTooSmallZero, rfl⟩ (Or.inl h0), ?_, ?_⟩
    · intro s hs
      cases hs
    · intro e he
      rfl
  · rw [if_neg h0]
    cases hlast : entries.getLast? with
    | none =>
      dsimp only
      refine ⟨?_, ?_, ?_⟩
      · refine iff_of_false ?_ ?_
        · rintro ⟨e, he⟩
          cases he
        · rintro (hc | ⟨last, hl, _⟩)
          · exact h0 hc
          · cases hl
      · intro s hs
        refine ⟨by cases hs; rfl, rfl, ?_⟩
        intro last hl
        cases hl
      · intro e he
        cases he
    | some last =>
      dsimp only
      by_cases hle : idLe new_id last.id = true
      · rw [if_pos hle]
        refine ⟨iff_of_true ⟨.idNotGreater, rfl⟩ (Or.inr ⟨last, rfl, hle⟩), ?_, ?_⟩
        · intro s hs
          cases hs
        · intro e he
          rfl
      · rw [if_neg hle]
        refine ⟨?_, ?_, ?_⟩
        · refine iff_of_false ?_ ?_
          · rintro ⟨e, he⟩
            cases he
          · rintro (hc | ⟨last', hl, hle'⟩)
            · exact h0 hc
            · rw [Option.some.injEq] at hl
              exact hle (hl ▸ hle')
        · intro s hs
          refine ⟨by cases hs; rfl, rfl, ?_⟩
          intro last' hl
          rw [Option.some.injEq] at hl
          subst hl
          exact idLe_false_lt (by simpa using hle)
        · intro e he
          cases he

/-- Witness for C4: adding id `1-2` after a last id of `1-1` succeeds and
appends the record. -/
theorem C4_xadd_order_witness :
    computeNewId ['1', '-', '2'] [⟨⟨1, 1⟩, []⟩] 0 = some ⟨1, 2⟩ ∧
    (StoredValue.add_entry ⟨.stream [⟨⟨1, 1⟩, []⟩] [], none, ['s']⟩
        ['1', '-', '2'] [] 0).1 =
      ⟨.stream ([⟨⟨1, 1⟩, []⟩] ++ [⟨⟨1, 2⟩, []⟩]) [], none, ['s']⟩ :=
  ⟨by decide,
    ((@C4_xadd_order [⟨⟨1, 1⟩, []⟩] [] none ['s'] ['1', '-', '2'] [] 0 ⟨1, 2⟩
      (by decide)).2.1 (idToString ⟨1, 2⟩) rfl).2.1⟩

/-! Section: claim C5: id pattern resolution -/

theorem splitDash_no_dash : ∀ {l : List Char}, '-' ∉ l → splitDash l = [l] := by
  intro l
  induction l with
  | nil => intro h; rfl
  | cons c t ih =>
    intro h
    have hc : ¬ (c = '-') := fun he => h (by simp [he])
    have ht := ih (fun hm => h (List.mem_cons_of_mem _ hm))
    simp only [splitDash, if_neg hc, ht]

theorem splitDash_append {l₁ l₂ : List Char} (h : '-' ∉ l₁) :
    splitDash (l₁ ++ '-' :: l₂) = l₁ :: splitDash l₂ := by
  induction l₁ with
  | nil => simp [splitDash]
  | cons c t ih =>
    have hc : ¬ (c = '-') := fun he => h (by simp [he])
    have ht : splitDash (t.append ('-' :: l₂)) = t :: splitDash l₂ :=
      ih (fun hm => h (List.mem_cons_of_mem _ hm))
    simp only [List.cons_append, splitDash, if_neg hc, ht]

theorem natDigits_no_dash (n : Nat) : '-' ∉ natDigits n := by
  intro hm
  have h1 := List.all_eq_true.mp (natDigits_all_digit n) _ hm
  have h2 := isDigitB_toNat h1
  have h3 : ('-' : Char).toNat = 45 := by decide
  omega

/-- C5: the id argument of XADD resolves as the source does it: an explicit
`a-b` yields `(a,b)`; a bare integer `a` yields `(a,0)`; `*` yields
`(last.ms, last.seq+1)` on a non-empty stream and `(now_ms, 0)` on an empty
one; `a-*` yields `(a, last.seq+1)` when the last record's ms part equals
`a`, and otherwise `(a,1)` when `a = 0` and `(a,0)` when `a ≠ 0`. -/
theorem C5_id_resolution :
    (∀ a b : Nat, a < 2 ^ 64 → b < 2 ^ 64 →
      streamEntryId_from_str (natDigits a ++ '-' :: natDigits b) = some ⟨a, b⟩) ∧
    (∀ a : Nat, a < 2 ^ 64 → streamEntryId_from_str (natDigits a) = some ⟨a, 0⟩) ∧
    (∀ now : Nat, from_pattern ['*'] none now = some ⟨now, 0⟩) ∧
    (∀ t s now : Nat, s + 1 < 2 ^ 64 →
      from_pattern ['*'] (some ⟨t, s⟩) now = some ⟨t, s + 1⟩) ∧
    (∀ a now : Nat, a < 2 ^ 64 →
      from_pattern (natDigits a ++ ['-', '*']) none now =
        some ⟨a, if a = 0 then 1 else 0⟩) ∧
    (∀ a s now : Nat, a < 2 ^ 64 → s + 1 < 2 ^ 64 →
      from_pattern (natDigits a ++ ['-', '*']) (some ⟨a, s⟩) now = some ⟨a, s + 1⟩) ∧
    (∀ a t s now : Nat, a < 2 ^ 64 → t ≠ a →
      from_pattern (natDigits a ++ ['-', '*']) (some ⟨t, s⟩) now =
        some ⟨a, if a = 0 then 1 else 0⟩) := by
  have hpat : ∀ a : Nat, (natDigits a ++ ['-', '*'] : List Char) ≠ ['*'] := by
    intro a he
    have hlen := natDigits_length_pos a
    have := congrArg List.length he
    simp only [List.length_append, List.length_cons, List.length_nil] at this
    omega
  have hsplit : ∀ a : Nat,
      splitDash (natDigits a ++ ['-', '*']) = [natDigits a, ['*']] := by
    intro a
    rw [show (['-', '*'] : List Char) = '-' :: ['*'] from rfl,
      splitDash_append (natDigits_no_dash a),
      splitDash_no_dash (show '-' ∉ (['*'] : List Char) from by decide)]
  refine ⟨?_, ?_, ?_, ?_, ?_, ?_, ?_⟩
  · intro a b ha hb
    rw [streamEntryId_from_str, splitDash_append (natDigits_no_dash a),
      splitDash_no_dash (natDigits_no_dash b)]
    dsimp only
    rw [parseU64_natDigits ha, parseU64_natDigits hb]
  · intro a ha
    rw [streamEntryId_from_str, splitDash_no_dash (natDigits_no_dash a)]
    dsimp only
    rw [parseU64_natDigits ha]
  · intro now
    rw [from_pattern, if_pos rfl]
  · intro t s now h
    rw [from_pattern, if_pos rfl]
    dsimp only
    simp only [wrap64]
    rw [Nat.mod_eq_of_lt (by omega)]
  · intro a now ha
    rw [from_pattern, if_neg (hpat a), hsplit a]
    dsimp only
    rw [if_pos rfl, parseU64_natDigits ha]
  · intro a s now ha hs
    rw [from_pattern, if_neg (hpat a), hsplit a]
    dsimp only
    rw [if_pos rfl, parseU64_natDigits ha]
    dsimp only
    rw [if_pos rfl]
    simp only [wrap64]
    rw [Nat.mod_eq_of_lt (by omega)]
  · intro a t s now ha hta
    rw [from_pattern, if_neg (hpat a), hsplit a]
    dsimp only
    rw [if_pos rfl, parseU64_natDigits ha]
    dsimp only
    rw [if_neg hta]

/-- Witness for C5: `1-2` resolves to `(1,2)`, and `5-*` after last id
`(5,3)` resolves to `(5,4)`. -/
theorem C5_id_resolution_witness :
    ((1 : Nat) < 2 ^ 64 ∧ (2 : Nat) < 2 ^ 64 ∧
      streamEntryId_from_str (natDigits 1 ++ '-' :: natDigits 2) = some ⟨1, 2⟩) ∧
    ((5 : Nat) < 2 ^ 64 ∧ (3 : Nat) + 1 < 2 ^ 64 ∧
      from_pattern (natDigits 5 ++ ['-', '*']) (some ⟨5, 3⟩) 0 = some ⟨5, 4⟩) :=
  ⟨⟨by decide, by decide, C5_id_resolution.1 1 2 (by decide) (by decide)⟩,
    ⟨by decide, by decide,
      C5_id_resolution.2.2.2.2.2.1 5 3 0 (by decide) (by decide)⟩⟩

/-! Section: claim C6: XRANGE bare high-end bound -/

/-- C6 at the failing input: `parse::<StreamEntryId>()` already accepts the
bare integer `5` as `(5,0)`, so the `u64::MAX` expansion in the
`.or(...)` branch is dead code; `XRANGE s - 5` on a stream holding `5-0`
and `5-1` therefore returns only `5-0`, although the claimed bound
`(5, max_seq)` would include `5-1`. -/
theorem C6_xrange_to_bound :
    xrangeToId ['5'] = some ⟨5, 0⟩ ∧
    xrangeToId ['5'] ≠ some ⟨5, U64MAX⟩ ∧
    idLe ⟨5, 1⟩ ⟨5, U64MAX⟩ = true ∧
    xrangeCommand exStore56 ['s'] ['-'] ['5'] =
      some [.Array [.Array [.Bulk (idToString ⟨5, 0⟩), .Array []]]] :=
  ⟨rfl, by decide, by decide, rfl⟩

/-! Section: claim C7: KEYS and expiry -/

/-- Counterexample to C7 as stated: a store holding a single string entry
whose `valid_until` (5 ms) lies before the probe time (10 ms) still reports
that key in the KEYS reply. -/
theorem C7_counterexample :
    keysCommand exStoreExpired [] = [.Array [.Bulk ['a']]] ∧
    expiredAt exExpired 10 = true ∧
    (['a'], exExpired) ∈ exStoreExpired :=
  ⟨rfl, rfl, List.mem_singleton.mpr rfl⟩

/-- C7 (amended): KEYS returns exactly the keys present in the map — the
pattern argument is accepted and ignored — with no expiry filtering:
a key whose entry is expired still appears. -/
theorem C7_keys_amended :
    (∀ (st : KVStore) (p1 p2 : List (List Char)),
      keysCommand st p1 = keysCommand st p2) ∧
    (∀ (st : KVStore) (params : List (List Char)),
      keysCommand st params = [.Array ((storeKeys st).map (fun k => .Bulk k))]) ∧
    (∀ (st : KVStore) (k : List Char) (sv : StoredValue) (now : Nat),
      (k, sv) ∈ st → expiredAt sv now = true →
      RESP.Bulk k ∈ (storeKeys st).map (fun k => .Bulk k)) := by
  refine ⟨fun st p1 p2 => rfl, fun st params => rfl, ?_⟩
  intro st k sv now hmem hexp
  exact List.mem_map.mpr ⟨k, List.mem_map.mpr ⟨(k, sv), hmem, rfl⟩, rfl⟩

/-- Witness for C7 (amended) at the expired-entry store. -/
theorem C7_keys_amended_witness :
    ((['a'], exExpired) ∈ exStoreExpired ∧ expiredAt exExpired 10 = true) ∧
    RESP.Bulk ['a'] ∈ (storeKeys exStoreExpired).map (fun k => .Bulk k) :=
  ⟨⟨List.mem_singleton.mpr rfl, rfl⟩,
    C7_keys_amended.2.2 exStoreExpired ['a'] exExpired 10
      (List.mem_singleton.mpr rfl) rfl⟩

/-! Section: claim C9: add_listener and missing keys -/

/-- Counterexample to C9 as stated: requesting a listener registration for a
key absent from an empty store succeeds silently — no not-found error is
returned. -/
theorem C9_counterexample :
    add_listener [] [['k']] 7 = ([], .ok ()) ∧ storeGet [] ['k'] = none :=
  ⟨rfl, rfl⟩

theorem storeGet_insert_self (st : KVStore) (k : List Char) (v : StoredValue) :
    storeGet (storeInsert st k v) k = some v := by
  induction st with
  | nil => simp [storeInsert, storeGet]
  | cons p t ih =>
    by_cases hk : p.1 = k
    · simp [storeInsert, storeGet, hk]
    · simp [storeInsert, storeGet, hk, ih]

theorem storeGet_insert_ne (st : KVStore) {k k' : List Char} (h : k ≠ k')
    (v : StoredValue) : storeGet (storeInsert st k v) k' = storeGet st k' := by
  induction st with
  | nil => simp [storeInsert, storeGet, h]
  | cons p t ih =>
    by_cases hk : p.1 = k
    · simp [storeInsert, storeGet, hk, h]
    · by_cases hk' : p.1 = k'
      · have hkk : ¬ (k' = k) := fun he => h he.symm
        simp [storeInsert, storeGet, hk, hk', hkk]
      · simp [storeInsert, storeGet, hk, hk', ih]

/-- C9 (amended): when every requested key is absent or holds a stream,
`add_listener` succeeds; requested keys absent from the store are silently
skipped (they stay absent and no not-found error is raised), unrequested
keys are untouched, and (for a duplicate-free request set) the listener is
appended to every requested stream key's listener list. -/
theorem C9_add_listener_amended (keys : List (List Char)) : ∀ (st : KVStore) (l : Nat),
    keysStreamOrAbsent st keys = true →
    ∃ st', add_listener st keys l = (st', .ok ()) ∧
      (∀ k, k ∉ keys → storeGet st' k = storeGet st k) ∧
      (∀ k ∈ keys, storeGet st k = none → storeGet st' k = none) ∧
      (keys.Nodup → ∀ k ∈ keys, ∀ es ls vu ky,
        storeGet st k = some ⟨.stream es ls, vu, ky⟩ →
        storeGet st' k = some ⟨.stream es (ls ++ [l]), vu, ky⟩) := by
  induction keys with
  | nil =>
    intro st l h
    exact ⟨st, rfl, fun k _ => rfl, by simp, by simp⟩
  | cons k0 ks ih =>
    intro st l h
    simp only [keysStreamOrAbsent, List.all_cons, Bool.and_eq_true] at h
    have htail : keysStreamOrAbsent st ks = true := h.2
    cases hg : storeGet st k0 with
    | none =>
      obtain ⟨st', h1, h2, h3, h4⟩ := ih st l htail
      have hrun : add_listener st (k0 :: ks) l = (st', .ok ()) := by
        simp only [add_listener, addListenerGo, hg]
        exact h1
      refine ⟨st', hrun, ?_, ?_, ?_⟩
      · intro k hk
        exact h2 k (fun hm => hk (List.mem_cons_of_mem _ hm))
      · intro k hk hnone
        rcases List.mem_cons.mp hk with he | hm
        · subst he
          by_cases hin : k ∈ ks
          · exact h3 k hin hnone
          · rw [h2 k hin, hnone]
        · exact h3 k hm hnone
      · intro hnd k hk es ls vu ky hsv
        rcases List.mem_cons.mp hk with he | hm
        · subst he
          rw [hg] at hsv
          cases hsv
        · exact h4 (List.nodup_cons.mp hnd).2 k hm es ls vu ky hsv
    | some v =>
      have hh := h.1
      rw [hg] at hh
      dsimp only at hh
      cases hv : v.value with
      | string s =>
        rw [hv] at hh
        simp at hh
      | stream es ls =>
        have hins : addListenerGo st (k0 :: ks) l =
            addListenerGo
              (storeInsert st k0 ⟨.stream es (ls ++ [l]), v.valid_until, v.key⟩)
              ks l := by
          simp only [addListenerGo, hg, hv]
        have htail1 : keysStreamOrAbsent
            (storeInsert st k0 ⟨.stream es (ls ++ [l]), v.valid_until, v.key⟩) ks =
            true := by
          simp only [keysStreamOrAbsent, List.all_eq_true] at htail ⊢
          intro k hk
          by_cases hke : k0 = k
          · subst hke
            rw [storeGet_insert_self]
          · rw [storeGet_insert_ne _ hke]
            exact htail k hk
        obtain ⟨st', h1, h2, h3, h4⟩ :=
          ih (storeInsert st k0 ⟨.stream es (ls ++ [l]), v.valid_until, v.key⟩) l htail1
        refine ⟨st', by rw [add_listener, hins]; exact h1, ?_, ?_, ?_⟩
        · intro k hk
          have hk0 : k0 ≠ k := fun he => hk (he ▸ List.mem_cons_self _ _)
          rw [h2 k (fun hm => hk (List.mem_cons_of_mem _ hm)),
            storeGet_insert_ne _ hk0]
        · intro k hk hnone
          rcases List.mem_cons.mp hk with he | hm
          · subst he
            rw [hg] at hnone
            cases hnone
          · have hk0 : k0 ≠ k := fun he => by
              rw [← he, hg] at hnone
              cases hnone
            have : storeGet
                (storeInsert st k0 ⟨.stream es (ls ++ [l]), v.valid_until, v.key⟩) k =
                none := by
              rw [storeGet_insert_ne _ hk0, hnone]
            exact h3 k hm this
        · intro hnd k hk es0 ls0 vu ky hsv
          have hnd' := List.nodup_cons.mp hnd
          rcases List.mem_cons.mp hk with he | hm
          · subst he
            rw [hg, Option.some.injEq] at hsv
            subst hsv
            injection hv with he1 he2
            subst he1
            subst he2
            rw [h2 k hnd'.1, storeGet_insert_self]
          · have hk0 : k0 ≠ k := fun he => hnd'.1 (he ▸ hm)
            have : storeGet
                (storeInsert st k0 ⟨.stream es (ls ++ [l]), v.valid_until, v.key⟩) k =
                some ⟨.stream es0 ls0, vu, ky⟩ := by
              rw [storeGet_insert_ne _ hk0]
              exact hsv
            exact h4 hnd'.2 k hm es0 ls0 vu ky this

/-- Witness for C9 (amended): registering one listener on a store holding a
single empty stream. -/
theorem C9_add_listener_witness :
    keysStreamOrAbsent exListenStore [['k']] = true ∧
    (∃ st', add_listener exListenStore [['k']] 7 = (st', .ok ()) ∧
      (∀ k, k ∉ ([['k']] : List (List Char)) → storeGet st' k = storeGet exListenStore k) ∧
      (∀ k ∈ ([['k']] : List (List Char)), storeGet exListenStore k = none →
        storeGet st' k = none) ∧
      (([['k']] : List (List Char)).Nodup → ∀ k ∈ ([['k']] : List (List Char)),
        ∀ es ls vu ky, storeGet exListenStore k = some ⟨.stream es ls, vu, ky⟩ →
        storeGet st' k = some ⟨.stream es (ls ++ [7]), vu, ky⟩)) :=
  ⟨by decide, C9_add_listener_amended [['k']] exListenStore 7 (by decide)⟩

end Redis
